import Mathlib

/-!
# MWIMarketData — verification of the market-data pipeline

Shallow embedding of the MWIMarketData repository: the frontend analytics
code (`src/frontend/src/app/items/page.tsx`) is translated directly; the
backend sync/aggregation engine (described by the repository's database
document and the specification, but whose Python source is not part of the
file set) is modelled from the specification where indicated.

Numeric values are embedded as rationals (`ℚ`): JavaScript numbers and the
MySQL `DOUBLE` column are idealized as exact rational arithmetic, which is
faithful on every concrete value exercised here (all are exactly
representable in binary64).
-/

namespace MWIMarket

/-! ## Frontend: number formatting (`formatNumber`, page.tsx lines 125–136) -/

/-- The argument type of `formatNumber`: TypeScript `number | null | undefined`. -/
inductive NumInput where
  | num (q : ℚ)
  | null
  | undef
deriving DecidableEq

/-- JavaScript `x.toFixed(1)` on an exact rational: round `x·10` to the nearest
integer and print with one digit after the decimal point. -/
def toFixed1 (q : ℚ) : String :=
  (if round (q * 10) < 0 then "-" else "")
    ++ toString ((round (q * 10)).natAbs / 10)
    ++ "."
    ++ toString ((round (q * 10)).natAbs % 10)

/-- `formatNumber` from page.tsx lines 125–136: `'-'` for null/undefined, then
`(num/1000000).toFixed(1)+'M'` for `num ≥ 1000000`,
`(num/1000).toFixed(1)+'K'` for `num ≥ 1000`, else `num.toFixed(1)`. -/
def formatNumber : NumInput → String
  | .null => "-"
  | .undef => "-"
  | .num q =>
    if (1000000 : ℚ) ≤ q then toFixed1 (q / 1000000) ++ "M"
    else if (1000 : ℚ) ≤ q then toFixed1 (q / 1000) ++ "K"
    else toFixed1 q

/-! ## Frontend: moving averages (`calculateMA`, page.tsx lines 172–187) -/

/-- Round a rational to two decimal places: JavaScript `+(x).toFixed(2)`. -/
def round2 (q : ℚ) : ℚ := (round (q * 100) : ℤ) / 100

/-- One entry of the `calculateMA` result: `'-'` (here `none`) for
`i < dayCount - 1`, otherwise the window sum `Σ_{j<dayCount} data[i-j][1]`
divided by `dayCount` and truncated to two decimals. -/
def maEntry (data : List (ℚ × ℚ)) (dayCount i : ℕ) : Option ℚ :=
  if i < dayCount - 1 then none
  else some (round2 ((((List.range dayCount).map (fun j => (data.getD (i - j) (0, 0)).2)).sum) / dayCount))

/-- `calculateMA` from page.tsx lines 172–187: the loop over `i < data.length`
pushing `'-'` or the rounded window average. -/
def calculateMA (data : List (ℚ × ℚ)) (dayCount : ℕ) : List (Option ℚ) :=
  (List.range data.length).map (maEntry data dayCount)

/-! ## Frontend: change-percentage leaderboards (`fetchData` sort, page.tsx
lines 271–284, and the dashboard filters/slices, lines 474–477 etc.) -/

/-- The row shape of `statsResult.data.day7` / `.day1` (interface `ItemStats`). -/
structure ItemStats where
  id : ℕ
  name : String
  name_cn : String
  current_price : ℚ
  old_price : ℚ
  change_percentage : ℚ
deriving DecidableEq

/-- The `fetchData` comparator `(a, b) => Math.abs(b.change_percentage) -
Math.abs(a.change_percentage)`: `a` sorts before `b` iff `|b| ≤ |a|`. -/
def absDesc (a b : ItemStats) : Bool :=
  decide (|b.change_percentage| ≤ |a.change_percentage|)

/-- The `.sort(...)` call in `fetchData`: a stable sort by descending absolute
change percentage (ES2019 `Array.prototype.sort` is stable, so any stable
sort — here merge sort — is an exact model of the produced order). -/
def sortStats (l : List ItemStats) : List ItemStats := l.mergeSort absDesc

/-- The gainers partition: `stats.day7.filter(item => item.change_percentage > 0)`
applied to the sorted data. -/
def gainersOf (l : List ItemStats) : List ItemStats :=
  (sortStats l).filter (fun x => decide (0 < x.change_percentage))

/-- The losers partition: `filter(item => item.change_percentage < 0)`. -/
def losersOf (l : List ItemStats) : List ItemStats :=
  (sortStats l).filter (fun x => decide (x.change_percentage < 0))

/-- The dashboard's `.slice(0, 5)` on the gainers partition. -/
def topGainers (l : List ItemStats) : List ItemStats := (gainersOf l).take 5

/-- The dashboard's `.slice(0, 5)` on the losers partition. -/
def topLosers (l : List ItemStats) : List ItemStats := (losersOf l).take 5

/-! ## Sync engine (modelled from the spec)

The repository's Python backend is not in the file set; the database
document (`market.db` / MySQL schema, sync strategy) and §4.1 of the
specification describe it. -/

/-- Modelled from the spec: a raw SQLite price cell is stored as INTEGER or
REAL (database document, 注意事项 1). -/
inductive RawValue where
  | intVal (n : ℤ)
  | realVal (q : ℚ)
deriving DecidableEq

/-- Modelled from the spec: the coercion of a raw INTEGER/REAL price to the
canonical real (MySQL DOUBLE) column, required to be exact on integral
values and to preserve fractional values. -/
def coerceToDouble : RawValue → ℚ
  | .intVal n => (n : ℚ)
  | .realVal q => q

/-- The `type ENUM('ask','bid')` column. -/
inductive Side where
  | ask
  | bid
deriving DecidableEq

/-- Modelled from the spec: one row of a raw wide table — a timestamp plus one
optional price cell per item-name column. -/
structure RawRow where
  timestamp : ℤ
  cells : List (String × Option RawValue)
deriving DecidableEq

/-- Modelled from the spec: the raw store, two wide tables `ask` and `bid`. -/
structure RawStore where
  ask : List RawRow
  bid : List RawRow
deriving DecidableEq

/-- One row of the normalized `items` table. -/
structure Item where
  id : ℕ
  name : String
deriving DecidableEq

/-- One row of the normalized `prices` fact table (minus its surrogate key). -/
structure PriceRow where
  timestamp : ℤ
  item_id : ℕ
  price : ℚ
  side : Side
deriving DecidableEq

/-- Modelled from the spec: the normalized MySQL store plus the
auto-increment counter backing `items.id`. -/
structure NormState where
  items : List Item
  nextId : ℕ
  prices : List PriceRow
deriving DecidableEq

/-- All item-name columns appearing in either raw table. -/
def colNames (R : RawStore) : List String :=
  ((R.ask ++ R.bid).map (fun r => r.cells.map Prod.fst)).flatten

/-- Modelled from the spec: `INSERT IGNORE` of one item name — an existing
item with the same name is left untouched, otherwise a fresh id is assigned. -/
def registerItem (s : NormState) (nm : String) : NormState :=
  if s.items.any (fun it => it.name = nm) then s
  else { s with items := s.items ++ [⟨s.nextId, nm⟩], nextId := s.nextId + 1 }

/-- Modelled from the spec: step 1 of `sync()` — incremental item registration
over every observed column name. -/
def registerItems (s : NormState) (nms : List String) : NormState :=
  nms.foldl registerItem s

/-- Look up the id registered for an item name. -/
def lookupId (items : List Item) (nm : String) : Option ℕ :=
  (items.find? (fun it => it.name = nm)).map Item.id

/-- Modelled from the spec: the observations contributed by one raw row on one
side — absent cells are skipped, present cells are coerced to DOUBLE. -/
def rowObservations (items : List Item) (sd : Side) (r : RawRow) : List PriceRow :=
  r.cells.filterMap (fun c =>
    match c.2, lookupId items c.1 with
    | some v, some i => some ⟨r.timestamp, i, coerceToDouble v, sd⟩
    | _, _ => none)

/-- Modelled from the spec: step 2 of `sync()` — the full fact snapshot
transformed from both raw tables. -/
def transform (items : List Item) (R : RawStore) : List PriceRow :=
  ((R.ask.map (rowObservations items .ask)).flatten)
    ++ ((R.bid.map (rowObservations items .bid)).flatten)

/-- Modelled from the spec: one `sync()` cycle on its success path — register
the observed item names, then replace the whole `prices` table with the fresh
snapshot. -/
def sync (s : NormState) (R : RawStore) : NormState :=
  { registerItems s (colNames R) with
    prices := transform (registerItems s (colNames R)).items R }

/-- Split a list into batches of `n` (structural fuel = list length). -/
def chunksGo (n : ℕ) : ℕ → List PriceRow → List (List PriceRow)
  | _, [] => []
  | 0, _ => []
  | fuel + 1, l => l.take n :: chunksGo n fuel (l.drop n)

/-- The batch split used by the bulk insert (batch size 1000 in the backend). -/
def chunks (n : ℕ) (l : List PriceRow) : List (List PriceRow) := chunksGo n l.length l

/-- Modelled from the spec: perform the batched inserts inside the sync
transaction; `failAt k = true` means the write of batch `k` fails, aborting
the whole transaction (`none`). -/
def writeBatches (failAt : ℕ → Bool) : ℕ → List (List PriceRow) → Option (List PriceRow)
  | _, [] => some []
  | k, b :: bs =>
    if failAt k then none
    else (writeBatches failAt (k + 1) bs).map (fun rest => b ++ rest)

/-- Modelled from the spec: a full sync cycle under a batch-failure oracle.
On any batch failure the transaction is rolled back: the cycle reports
`false` and the visible normalized store is exactly the pre-sync state. -/
def syncCycle (failAt : ℕ → Bool) (s : NormState) (R : RawStore) : Bool × NormState :=
  match writeBatches failAt 0
      (chunks 1000 (transform (registerItems s (colNames R)).items R)) with
  | none => (false, s)
  | some rows => (true, { registerItems s (colNames R) with prices := rows })

/-! ## Aggregation engine (modelled from the spec, §4.2) -/

/-- A normalized price observation as seen by the aggregation engine. -/
structure Obs where
  t : ℤ
  p : ℚ
deriving DecidableEq

/-- The per-bucket accumulator/candle: open and close carry the timestamp at
which they were observed. -/
structure Candle where
  openT : ℤ
  openP : ℚ
  closeT : ℤ
  closeP : ℚ
  low : ℚ
  high : ℚ
  volume : ℕ
deriving DecidableEq

/-- The candle of a bucket containing a single observation. -/
def initCandle (o : Obs) : Candle := ⟨o.t, o.p, o.t, o.p, o.p, o.p, 1⟩

/-- Modelled from the spec: fold one more observation into a bucket's candle —
an earlier timestamp takes over the open, a later one the close; low/high and
the volume count are updated unconditionally. -/
def stepCandle (c : Candle) (o : Obs) : Candle :=
  { openT := if o.t < c.openT then o.t else c.openT
    openP := if o.t < c.openT then o.p else c.openP
    closeT := if c.closeT < o.t then o.t else c.closeT
    closeP := if c.closeT < o.t then o.p else c.closeP
    low := min c.low o.p
    high := max c.high o.p
    volume := c.volume + 1 }

/-- The candle of a non-empty bucket. -/
def candleOfBucket (o : Obs) (rest : List Obs) : Candle :=
  rest.foldl stepCandle (initCandle o)

/-- Modelled from the spec: `computeTrend` — truncate timestamps to buckets of
duration `d`, order the non-empty buckets by start time ascending, and emit
one candle per bucket. -/
def computeTrend (d : ℤ) (l : List Obs) : List Candle :=
  (List.insertionSort (· ≤ ·) ((l.map (fun o => o.t / d)).dedup)).filterMap
    (fun b =>
      match l.filter (fun o => decide (o.t / d = b)) with
      | [] => none
      | o :: rest => some (candleOfBucket o rest))

/-! ## Change rankings (modelled from the spec, §4.2 `computeChangeRankings`) -/

/-- One entry of a change ranking. -/
structure ChangeEntry where
  item_id : ℕ
  old_price : ℚ
  current_price : ℚ
  change_percentage : ℚ
deriving DecidableEq

/-- One step of the latest-observation scan: an in-range observation with a
strictly later timestamp replaces the current best. -/
def latestStep (cutoff : ℤ) (acc : Option Obs) (o : Obs) : Option Obs :=
  if o.t ≤ cutoff then
    match acc with
    | none => some o
    | some a => if a.t < o.t then some o else some a
  else acc

/-- Modelled from the spec: the latest observation at or before `cutoff`,
`none` when the item has no observation in range. -/
def latestAtOrBefore (cutoff : ℤ) (l : List Obs) : Option Obs :=
  l.foldl (latestStep cutoff) none

/-- Modelled from the spec: the ranking entry of one item — excluded (`none`)
when either the reference or the current price is undefined or the reference
price is 0, otherwise carrying `(current - reference) / reference * 100`. -/
def changeEntryFor (now window : ℤ) (i : ℕ) (l : List Obs) : Option ChangeEntry :=
  match latestAtOrBefore (now - window) l, latestAtOrBefore now l with
  | some r, some c =>
    if r.p = 0 then none
    else some ⟨i, r.p, c.p, (c.p - r.p) / r.p * 100⟩
  | _, _ => none

/-- Modelled from the spec: the full change ranking over a set of items with
their observation lists; excluded items simply do not appear. -/
def computeChangeRankings (now window : ℤ) (items : List (ℕ × List Obs)) : List ChangeEntry :=
  items.filterMap (fun e => changeEntryFor now window e.1 e.2)

/-- The gainers partition of a change ranking. -/
def rankGainers (l : List ChangeEntry) : List ChangeEntry :=
  l.filter (fun e => decide (0 < e.change_percentage))

/-! ## Theorems -/

/-- C8: the coercion of a raw price value to the canonical real type is exact
for integral values and preserves fractional values; in particular integral
`100` coerces to exactly `100.0`, and fractional `12.5` round-trips exactly. -/
theorem coercion_exact :
    (∀ n : ℤ, coerceToDouble (.intVal n) = (n : ℚ))
  ∧ (∀ q : ℚ, coerceToDouble (.realVal q) = q)
  ∧ coerceToDouble (.intVal 100) = (100 : ℚ)
  ∧ coerceToDouble (.realVal (25 / 2)) = (25 / 2 : ℚ) :=
  ⟨fun _ => rfl, fun _ => rfl, by norm_num [coerceToDouble], rfl⟩

theorem dot_data : (".").data = ['.'] := rfl

theorem dash_data : ("-").data = ['-'] := rfl

/-- The decimal dot is always present in a `toFixed(1)` rendering. -/
theorem toFixed1_dot (q : ℚ) : ('.' : Char) ∈ (toFixed1 q).data := by
  unfold toFixed1
  simp [String.data_append, dot_data, List.mem_append]

/-- Every numeric rendering of `formatNumber` contains a decimal dot. -/
theorem formatNumber_dot (q : ℚ) : ('.' : Char) ∈ (formatNumber (.num q)).data := by
  show ('.' : Char) ∈ ((if (1000000 : ℚ) ≤ q then toFixed1 (q / 1000000) ++ "M"
    else if (1000 : ℚ) ≤ q then toFixed1 (q / 1000) ++ "K" else toFixed1 q)).data
  split
  · simp [String.data_append, List.mem_append, toFixed1_dot]
  · split
    · simp [String.data_append, List.mem_append, toFixed1_dot]
    · exact toFixed1_dot q

/-- C10: `formatNumber` is total over `number | null | undefined`, returns
`'-'` exactly for null/undefined, and otherwise renders via `toFixed(1)`
with an `M` suffix above a million, a `K` suffix between a thousand and a
million, and no suffix below a thousand — never `'-'` for a number. -/
theorem formatNumber_spec :
    formatNumber .null = "-"
  ∧ formatNumber .undef = "-"
  ∧ (∀ q : ℚ, (1000000 : ℚ) ≤ q → formatNumber (.num q) = toFixed1 (q / 1000000) ++ "M")
  ∧ (∀ q : ℚ, (1000 : ℚ) ≤ q → q < 1000000 → formatNumber (.num q) = toFixed1 (q / 1000) ++ "K")
  ∧ (∀ q : ℚ, q < 1000 → formatNumber (.num q) = toFixed1 q)
  ∧ (∀ q : ℚ, formatNumber (.num q) ≠ "-") := by
  refine ⟨rfl, rfl, ?_, ?_, ?_, ?_⟩
  · intro q h
    simp [formatNumber, if_pos h]
  · intro q h1 h2
    rw [formatNumber, if_neg (by exact not_le.mpr h2), if_pos h1]
  · intro q h
    rw [formatNumber, if_neg (by exact not_le.mpr (h.trans (by norm_num))),
      if_neg (by exact not_le.mpr h)]
  · intro q hc
    have hd := formatNumber_dot q
    rw [hc] at hd
    rw [dash_data] at hd
    exact absurd hd (by decide)

/-- C10 witness: concrete inputs exercising every branch. -/
theorem formatNumber_spec_w :
    formatNumber .null = "-"
  ∧ formatNumber (.num 2500000) = toFixed1 (2500000 / 1000000) ++ "M"
  ∧ formatNumber (.num 1500) = toFixed1 (1500 / 1000) ++ "K"
  ∧ formatNumber (.num 12) = toFixed1 12
  ∧ formatNumber (.num 12) ≠ "-" :=
  ⟨formatNumber_spec.1,
   formatNumber_spec.2.2.1 2500000 (by norm_num),
   formatNumber_spec.2.2.2.1 1500 (by norm_num) (by norm_num),
   formatNumber_spec.2.2.2.2.1 12 (by norm_num),
   formatNumber_spec.2.2.2.2.2 12⟩

theorem sum_map_range_q (f : ℕ → ℚ) : ∀ n : ℕ,
    ((List.range n).map f).sum = ∑ j ∈ Finset.range n, f j
  | 0 => by simp
  | n + 1 => by
    rw [List.range_succ, List.map_append, List.sum_append, Finset.sum_range_succ,
      sum_map_range_q f n]
    simp

theorem slice_eq_map_range (vals : List ℚ) (a w : ℕ) (h : a + w ≤ vals.length) :
    (vals.drop a).take w = (List.range w).map (fun k => vals.getD (a + k) 0) := by
  apply List.ext_getElem
  · simp only [List.length_take, List.length_drop, List.length_map, List.length_range]
    omega
  · intro n h1 h2
    have hn : n < w := by
      simp only [List.length_take, List.length_drop] at h1
      omega
    have han : a + n < vals.length := by omega
    rw [List.getElem_take, List.getElem_drop]
    rw [List.getElem_map, List.getElem_range,
      List.getD_eq_getElem?_getD, List.getElem?_eq_getElem han]
    rfl

theorem getD_snd (data : List (ℚ × ℚ)) (k : ℕ) :
    (data.getD k (0, 0)).2 = (data.map Prod.snd).getD k 0 := by
  rcases lt_or_le k data.length with hk | hk
  · rw [List.getD_eq_getElem?_getD, List.getD_eq_getElem?_getD, List.getElem?_map,
      List.getElem?_eq_getElem hk]
    rfl
  · rw [List.getD_eq_getElem?_getD, List.getD_eq_getElem?_getD,
      List.getElem?_eq_none hk, List.getElem?_eq_none (by simpa using hk)]
    rfl

theorem window_sum_eq (vals : List ℚ) (w i : ℕ) (hw : 1 ≤ w) (hwi : w - 1 ≤ i)
    (hi : i < vals.length) :
    ((List.range w).map (fun j => vals.getD (i - j) 0)).sum
      = ((vals.drop (i + 1 - w)).take w).sum := by
  rw [slice_eq_map_range vals (i + 1 - w) w (by omega)]
  rw [sum_map_range_q, sum_map_range_q]
  rw [← Finset.sum_range_reflect (fun k => vals.getD (i + 1 - w + k) 0) w]
  apply Finset.sum_congr rfl
  intro j hj
  have hj' : j < w := Finset.mem_range.mp hj
  congr 1
  omega

/-- C4 (amended): for window `w ≥ 1`, the moving-average entry at index
`i < w - 1` is the absent marker (not zero), and at `i ≥ w - 1` it is the
arithmetic mean of the values at indices `[i-w+1, i]` rounded to two decimal
places (the code applies `toFixed(2)` to the mean before storing it). -/
theorem calculateMA_windows (data : List (ℚ × ℚ)) (w i : ℕ) (hw : 1 ≤ w)
    (hi : i < data.length) :
    (i < w - 1 → (calculateMA data w).getD i none = none)
  ∧ (w - 1 ≤ i → (calculateMA data w).getD i none
      = some (round2 (((((data.map Prod.snd).drop (i + 1 - w)).take w).sum) / w))) := by
  have hcal : (calculateMA data w).getD i none = maEntry data w i := by
    rw [calculateMA, List.getD_eq_getElem?_getD, List.getElem?_map, List.getElem?_range hi]
    rfl
  constructor
  · intro hlt
    rw [hcal, maEntry, if_pos hlt]
  · intro hge
    rw [hcal, maEntry, if_neg (by omega)]
    have h1 : ((List.range w).map (fun j => (data.getD (i - j) (0, 0)).2)).sum
        = (((data.map Prod.snd).drop (i + 1 - w)).take w).sum := by
      simp only [getD_snd]
      exact window_sum_eq (data.map Prod.snd) w i hw hge (by simpa using hi)
    rw [h1]

/-- The spec's moving-average example: close-price series 10, 12, 8, 15, 20
(paired with their bucket timestamps, as the chart data is). -/
def maExample : List (ℚ × ℚ) := [(0, 10), (1, 12), (2, 8), (3, 15), (4, 20)]

/-- C4 counterexample: on the claim's own example (close prices
`[10,12,8,15,20]`, window 3) the stored MA3 value at index 4 is `14.33`,
which is not the arithmetic mean `(8+15+20)/3 = 43/3` — `calculateMA`
rounds the mean to two decimals before storing it. -/
theorem calculateMA_not_mean :
    (calculateMA maExample 3).getD 4 none = some ((1433 : ℚ) / 100)
  ∧ (calculateMA maExample 3).getD 4 none ≠ some (((8 : ℚ) + 15 + 20) / 3) := by
  have h : (calculateMA maExample 3).getD 4 none = some ((1433 : ℚ) / 100) := by
    show maEntry maExample 3 4 = _
    rw [maEntry]
    norm_num [maExample, round2, round_eq, List.range_succ]
  refine ⟨h, ?_⟩
  rw [h]
  intro hc
  have h2 := Option.some.inj hc
  norm_num at h2

/-- C4 witness: the amended theorem applied to the spec's example — index 4
holds the rounded mean of the last three values, index 0 is absent. -/
theorem calculateMA_windows_w :
    (calculateMA maExample 3).getD 0 none = none
  ∧ (calculateMA maExample 3).getD 4 none
      = some (round2 (((((maExample.map Prod.snd).drop 2).take 3).sum) / 3)) :=
  ⟨(calculateMA_windows maExample 3 0 (by norm_num) (by norm_num [maExample])).1
      (by norm_num),
   (calculateMA_windows maExample 3 4 (by norm_num) (by norm_num [maExample])).2
      (by norm_num)⟩

theorem absDesc_trans :
    ∀ a b c : ItemStats, absDesc a b = true → absDesc b c = true → absDesc a c = true := by
  intro a b c h1 h2
  simp only [absDesc, decide_eq_true_eq] at *
  exact le_trans h2 h1

theorem absDesc_total : ∀ a b : ItemStats, (absDesc a b || absDesc b a) = true := by
  intro a b
  simp only [absDesc, Bool.or_eq_true, decide_eq_true_eq]
  exact le_total _ _

/-- C6: the gainers partition is exactly (as a multiset) the entries with
positive change percentage, the losers exactly those with negative change
percentage, each partition is ordered by descending absolute change
percentage, and the dashboard surfaces the top five of each. -/
theorem rankings_partition (l : List ItemStats) :
    (gainersOf l).Perm (l.filter (fun x => decide (0 < x.change_percentage)))
  ∧ (losersOf l).Perm (l.filter (fun x => decide (x.change_percentage < 0)))
  ∧ (gainersOf l).Sorted (fun a b => |b.change_percentage| ≤ |a.change_percentage|)
  ∧ (losersOf l).Sorted (fun a b => |b.change_percentage| ≤ |a.change_percentage|)
  ∧ topGainers l = (gainersOf l).take 5
  ∧ topLosers l = (losersOf l).take 5 := by
  have hperm := List.mergeSort_perm l absDesc
  have hsorted := List.sorted_mergeSort absDesc_trans absDesc_total l
  refine ⟨List.Perm.filter _ hperm, List.Perm.filter _ hperm, ?_, ?_, rfl, rfl⟩
  · exact (List.Pairwise.sublist (List.filter_sublist _) hsorted).imp
      (fun h => by simpa [absDesc] using h)
  · exact (List.Pairwise.sublist (List.filter_sublist _) hsorted).imp
      (fun h => by simpa [absDesc] using h)

/-- C9: the ranking order is a deterministic function of the input data, and
tie handling is stable — two entries with equal absolute change percentage
keep their input order in the sorted output, so repeated calls on unchanged
data produce identical orderings. -/
theorem sort_ties_stable (l : List ItemStats) (a b : ItemStats)
    (tie : |a.change_percentage| = |b.change_percentage|)
    (hab : List.Sublist [a, b] l) :
    List.Sublist [a, b] (sortStats l) :=
  List.pair_sublist_mergeSort absDesc_trans absDesc_total
    (by simp only [absDesc, decide_eq_true_eq]; exact tie.ge) hab

/-- C9 witness: a concrete tie (‖5‖ = ‖-5‖) keeps its input order. -/
theorem sort_ties_stable_w :
    List.Sublist [⟨1, "a", "", 0, 0, 5⟩, ⟨2, "b", "", 0, 0, -5⟩]
      (sortStats [⟨1, "a", "", 0, 0, 5⟩, ⟨2, "b", "", 0, 0, -5⟩]) :=
  sort_ties_stable _ _ _ (abs_neg (5 : ℚ)).symm (List.Sublist.refl _)

/-! ### Sync engine: item registration lemmas -/

theorem items_any_name (s : NormState) (nm : String) :
    (s.items.any (fun it => it.name = nm) = true) ↔ ∃ it ∈ s.items, it.name = nm := by
  simp [List.any_eq_true]

theorem registerItem_items (s : NormState) (nm : String) :
    ∃ t, (registerItem s nm).items = s.items ++ t
      ∧ ∀ it ∈ t, ∀ it2 ∈ s.items, it.name ≠ it2.name := by
  rw [registerItem]
  split
  · exact ⟨[], by simp, by simp⟩
  · rename_i h
    rw [items_any_name] at h
    push_neg at h
    refine ⟨[⟨s.nextId, nm⟩], rfl, ?_⟩
    intro it hit it2 hit2 hceq
    rcases List.mem_singleton.mp hit with rfl
    exact h it2 hit2 hceq.symm

theorem registerItems_items (s : NormState) (nms : List String) :
    ∃ t, (registerItems s nms).items = s.items ++ t
      ∧ ∀ it ∈ t, ∀ it2 ∈ s.items, it.name ≠ it2.name := by
  induction nms generalizing s with
  | nil => exact ⟨[], by simp [registerItems], by simp⟩
  | cons nm r ih =>
    rcases registerItem_items s nm with ⟨t1, h1, h1n⟩
    rcases ih (registerItem s nm) with ⟨t2, h2, h2n⟩
    refine ⟨t1 ++ t2, ?_, ?_⟩
    · have hstep : registerItems s (nm :: r) = registerItems (registerItem s nm) r := rfl
      rw [hstep, h2, h1, List.append_assoc]
    · intro it hit it2 hit2
      rcases List.mem_append.mp hit with hh | hh
      · exact h1n it hh it2 hit2
      · exact h2n it hh it2 (by rw [h1]; exact List.mem_append_left _ hit2)

theorem registerItem_mem_name (s : NormState) (nm : String) :
    ∃ it ∈ (registerItem s nm).items, it.name = nm := by
  rw [registerItem]
  split
  · rename_i h
    exact (items_any_name s nm).mp h
  · exact ⟨⟨s.nextId, nm⟩, by simp, rfl⟩

theorem mem_name_mono (s : NormState) (nms : List String) (nm : String)
    (h : ∃ it ∈ s.items, it.name = nm) :
    ∃ it ∈ (registerItems s nms).items, it.name = nm := by
  rcases h with ⟨it, hit, hn⟩
  rcases registerItems_items s nms with ⟨t, ht, -⟩
  exact ⟨it, by rw [ht]; exact List.mem_append_left _ hit, hn⟩

theorem name_mem_registerItems (s : NormState) (nms : List String) (nm : String) :
    nm ∈ nms → ∃ it ∈ (registerItems s nms).items, it.name = nm := by
  induction nms generalizing s with
  | nil => intro h; cases h
  | cons a r ih =>
    intro h
    have hstep : registerItems s (a :: r) = registerItems (registerItem s a) r := rfl
    rcases List.mem_cons.mp h with rfl | hr
    · rw [hstep]
      exact mem_name_mono _ r nm (registerItem_mem_name s nm)
    · rw [hstep]
      exact ih (registerItem s a) hr

theorem registerItem_noop (s : NormState) (nm : String)
    (h : ∃ it ∈ s.items, it.name = nm) : registerItem s nm = s := by
  rw [registerItem, if_pos ((items_any_name s nm).mpr h)]

theorem registerItems_noop (s : NormState) (nms : List String) :
    (∀ nm ∈ nms, ∃ it ∈ s.items, it.name = nm) → registerItems s nms = s := by
  induction nms with
  | nil => intro _; rfl
  | cons a r ih =>
    intro h
    have ha := registerItem_noop s a (h a (by simp))
    have hstep : registerItems s (a :: r) = registerItems (registerItem s a) r := rfl
    rw [hstep, ha]
    exact ih (fun nm hnm => h nm (by simp [hnm]))

theorem sync_items (s : NormState) (R : RawStore) :
    (sync s R).items = (registerItems s (colNames R)).items := rfl

theorem sync_prices (s : NormState) (R : RawStore) :
    (sync s R).prices = transform (registerItems s (colNames R)).items R := rfl

theorem sync_sync (s : NormState) (R : RawStore) : sync (sync s R) R = sync s R := by
  have hall : ∀ nm ∈ colNames R, ∃ it ∈ (sync s R).items, it.name = nm := by
    intro nm hnm
    rw [sync_items]
    exact name_mem_registerItems s (colNames R) nm hnm
  have hreg : registerItems (sync s R) (colNames R) = sync s R :=
    registerItems_noop (sync s R) (colNames R) hall
  show { registerItems (sync s R) (colNames R) with
      prices := transform (registerItems (sync s R) (colNames R)).items R } = sync s R
  rw [hreg]
  have hp : transform (sync s R).items R = (sync s R).prices := by
    rw [sync_prices, sync_items]
  rw [hp]

/-- C1: running `sync()` twice against an unchanged raw store yields the same
item registry (same id-to-name pairs) and the same multiset of price
observation rows as the first run. -/
theorem sync_idempotent (s : NormState) (R : RawStore) :
    (sync (sync s R) R).items = (sync s R).items
  ∧ ((sync (sync s R) R).prices : Multiset PriceRow)
      = ((sync s R).prices : Multiset PriceRow) := by
  rw [sync_sync]
  exact ⟨rfl, rfl⟩

theorem sync_items_append (s : NormState) (R : RawStore) :
    ∃ t, (sync s R).items = s.items ++ t
      ∧ ∀ it ∈ t, ∀ it2 ∈ s.items, it.name ≠ it2.name := by
  rw [sync_items]
  exact registerItems_items s (colNames R)

/-- C3: across any sequence of syncs the item registry only grows by
appending fresh names — every existing item keeps its id and name and is
never deleted, and registering an already-present name is a no-op. -/
theorem item_registry_monotone (s : NormState) (Rs : List RawStore) :
    (∃ t, (Rs.foldl sync s).items = s.items ++ t
        ∧ ∀ it ∈ t, ∀ it2 ∈ s.items, it.name ≠ it2.name)
  ∧ (∀ it ∈ s.items, it ∈ (Rs.foldl sync s).items)
  ∧ (∀ nm, (∃ it ∈ s.items, it.name = nm) → registerItem s nm = s) := by
  have main : ∃ t, (Rs.foldl sync s).items = s.items ++ t
      ∧ ∀ it ∈ t, ∀ it2 ∈ s.items, it.name ≠ it2.name := by
    induction Rs generalizing s with
    | nil => exact ⟨[], by simp, by simp⟩
    | cons R r ih =>
      rcases sync_items_append s R with ⟨t1, h1, h1n⟩
      rcases ih (sync s R) with ⟨t2, h2, h2n⟩
      refine ⟨t1 ++ t2, ?_, ?_⟩
      · show (r.foldl sync (sync s R)).items = _
        rw [h2, h1, List.append_assoc]
      · intro it hit it2 hit2
        rcases List.mem_append.mp hit with hh | hh
        · exact h1n it hh it2 hit2
        · exact h2n it hh it2 (by rw [h1]; exact List.mem_append_left _ hit2)
  refine ⟨main, ?_, fun nm h => registerItem_noop s nm h⟩
  rcases main with ⟨t, ht, -⟩
  intro it hit
  rw [ht]
  exact List.mem_append_left _ hit

/-- Concrete pre-sync state for witnesses: one registered item. -/
def wState : NormState := ⟨[⟨0, "coin"⟩], 1, []⟩

/-- Concrete raw store for witnesses: one ask row quoting the one item. -/
def wStore : RawStore := ⟨[⟨5, [("coin", some (.intVal 100))]⟩], []⟩

/-- C3 witness: a pre-registered item survives a sync over a raw store
quoting it, and re-registering its name is a no-op. -/
theorem item_registry_monotone_w :
    (⟨0, "coin"⟩ : Item) ∈ ([wStore].foldl sync wState).items
  ∧ registerItem wState "coin" = wState :=
  ⟨(item_registry_monotone wState [wStore]).2.1 ⟨0, "coin"⟩ (by simp [wState]),
   (item_registry_monotone wState [wStore]).2.2 "coin" ⟨⟨0, "coin"⟩, by simp [wState], rfl⟩⟩

/-! ### Sync engine: batched writes and rollback -/

theorem writeBatches_fail (failAt : ℕ → Bool) :
    ∀ (bs : List (List PriceRow)) (i : ℕ),
      (∃ k, k < bs.length ∧ failAt (i + k) = true) → writeBatches failAt i bs = none := by
  intro bs
  induction bs with
  | nil =>
    intro i h
    rcases h with ⟨k, hk, -⟩
    simp at hk
  | cons b r ih =>
    intro i h
    rcases h with ⟨k, hk, hf⟩
    rw [writeBatches]
    by_cases hi : failAt i = true
    · rw [if_pos hi]
    · rw [if_neg hi]
      have hk0 : k ≠ 0 := by
        rintro rfl
        rw [Nat.add_zero] at hf
        exact hi hf
      have hr : ∃ k2, k2 < r.length ∧ failAt (i + 1 + k2) = true := by
        refine ⟨k - 1, by simp at hk; omega, ?_⟩
        have he : i + 1 + (k - 1) = i + k := by omega
        rw [he]
        exact hf
      rw [ih (i + 1) hr]
      rfl

theorem writeBatches_ok (bs : List (List PriceRow)) :
    ∀ i, writeBatches (fun _ => false) i bs = some bs.flatten := by
  induction bs with
  | nil => intro i; rfl
  | cons b r ih =>
    intro i
    rw [writeBatches, if_neg (by simp), ih (i + 1)]
    rfl

theorem chunksGo_flatten (n : ℕ) (hn : 1 ≤ n) :
    ∀ (fuel : ℕ) (l : List PriceRow), l.length ≤ fuel → (chunksGo n fuel l).flatten = l := by
  intro fuel
  induction fuel with
  | zero =>
    intro l hl
    cases l with
    | nil => rfl
    | cons a r => simp at hl
  | succ f ih =>
    intro l hl
    cases l with
    | nil => rfl
    | cons a r =>
      show ((a :: r).take n :: chunksGo n f ((a :: r).drop n)).flatten = a :: r
      rw [List.flatten_cons,
        ih _ (by simp only [List.length_drop, List.length_cons] at hl ⊢; omega)]
      exact List.take_append_drop n (a :: r)

theorem chunks_flatten (n : ℕ) (hn : 1 ≤ n) (l : List PriceRow) :
    (chunks n l).flatten = l :=
  chunksGo_flatten n hn l.length l le_rfl

/-- C2: if any write batch fails mid-cycle, the sync cycle reports failure and
the visible normalized store is exactly the pre-sync state (rollback); the
clean retry of the full cycle is the plain `sync`, so retrying is safe. -/
theorem sync_rollback (s : NormState) (R : RawStore) (failAt : ℕ → Bool)
    (h : ∃ k, k < (chunks 1000 (transform (registerItems s (colNames R)).items R)).length
        ∧ failAt k = true) :
    syncCycle failAt s R = (false, s)
  ∧ syncCycle (fun _ => false) s R = (true, sync s R) := by
  constructor
  · have hw := writeBatches_fail failAt _ 0 (by simpa using h)
    rw [syncCycle, hw]
  · rw [syncCycle, writeBatches_ok, chunks_flatten 1000 (by norm_num)]
    rfl

/-- C2 witness: with the single concrete batch failing, the cycle reports
failure and leaves the store untouched; the clean retry equals `sync`. -/
theorem sync_rollback_w :
    syncCycle (fun _ => true) wState wStore = (false, wState)
  ∧ syncCycle (fun _ => false) wState wStore = (true, sync wState wStore) :=
  sync_rollback wState wStore (fun _ => true)
    ⟨0, by simp [chunks, chunksGo, transform, registerItems, registerItem, wState, wStore,
        rowObservations, lookupId, colNames], rfl⟩

/-! ### Aggregation: candle correctness -/

/-- The invariant the candle fold maintains over the observations consumed so
far: volume counts them, low/high are attained bounds of the prices, and the
open/close carry the price of a member observation with the minimal/maximal
timestamp. -/
def Represents (c : Candle) (l : List Obs) : Prop :=
  c.volume = l.length
  ∧ (∀ x ∈ l, c.low ≤ x.p) ∧ (∃ x ∈ l, c.low = x.p)
  ∧ (∀ x ∈ l, x.p ≤ c.high) ∧ (∃ x ∈ l, c.high = x.p)
  ∧ (∀ x ∈ l, c.openT ≤ x.t) ∧ (∃ x ∈ l, c.openT = x.t ∧ c.openP = x.p)
  ∧ (∀ x ∈ l, x.t ≤ c.closeT) ∧ (∃ x ∈ l, c.closeT = x.t ∧ c.closeP = x.p)

theorem represents_init (o : Obs) : Represents (initCandle o) [o] := by
  simp [Represents, initCandle]

theorem represents_step (c : Candle) (l : List Obs) (o : Obs) (h : Represents c l) :
    Represents (stepCandle c o) (l ++ [o]) := by
  obtain ⟨hvol, hlow1, hlow2, hhigh1, hhigh2, hot1, hot2, hct1, hct2⟩ := h
  refine ⟨?_, ?_, ?_, ?_, ?_, ?_, ?_, ?_, ?_⟩
  · simp [stepCandle, hvol]
  · intro x hx
    rcases List.mem_append.mp hx with hx | hx
    · exact le_trans (min_le_left _ _) (hlow1 x hx)
    · rcases List.mem_singleton.mp hx with rfl
      exact min_le_right _ _
  · rcases min_cases c.low o.p with ⟨hm, -⟩ | ⟨hm, -⟩
    · rcases hlow2 with ⟨x, hx, hxe⟩
      exact ⟨x, List.mem_append_left _ hx, by simpa [stepCandle, hm] using hxe⟩
    · exact ⟨o, List.mem_append_right _ (by simp), by simp [stepCandle, hm]⟩
  · intro x hx
    rcases List.mem_append.mp hx with hx | hx
    · exact le_trans (hhigh1 x hx) (le_max_left _ _)
    · rcases List.mem_singleton.mp hx with rfl
      exact le_max_right _ _
  · rcases max_cases c.high o.p with ⟨hm, -⟩ | ⟨hm, -⟩
    · rcases hhigh2 with ⟨x, hx, hxe⟩
      exact ⟨x, List.mem_append_left _ hx, by simpa [stepCandle, hm] using hxe⟩
    · exact ⟨o, List.mem_append_right _ (by simp), by simp [stepCandle, hm]⟩
  · intro x hx
    by_cases ho : o.t < c.openT
    · have he : (stepCandle c o).openT = o.t := by simp [stepCandle, ho]
      rw [he]
      rcases List.mem_append.mp hx with hx | hx
      · exact le_of_lt (lt_of_lt_of_le ho (hot1 x hx))
      · rcases List.mem_singleton.mp hx with rfl
        exact le_refl _
    · have he : (stepCandle c o).openT = c.openT := by simp [stepCandle, ho]
      rw [he]
      rcases List.mem_append.mp hx with hx | hx
      · exact hot1 x hx
      · rcases List.mem_singleton.mp hx with rfl
        exact not_lt.mp ho
  · by_cases ho : o.t < c.openT
    · exact ⟨o, List.mem_append_right _ (by simp), by simp [stepCandle, ho]⟩
    · rcases hot2 with ⟨x, hx, hxt, hxp⟩
      refine ⟨x, List.mem_append_left _ hx, ?_, ?_⟩
      · rw [show (stepCandle c o).openT = c.openT from by simp [stepCandle, ho]]
        exact hxt
      · rw [show (stepCandle c o).openP = c.openP from by simp [stepCandle, ho]]
        exact hxp
  · intro x hx
    by_cases hc : c.closeT < o.t
    · have he : (stepCandle c o).closeT = o.t := by simp [stepCandle, hc]
      rw [he]
      rcases List.mem_append.mp hx with hx | hx
      · exact le_of_lt (lt_of_le_of_lt (hct1 x hx) hc)
      · rcases List.mem_singleton.mp hx with rfl
        exact le_refl _
    · have he : (stepCandle c o).closeT = c.closeT := by simp [stepCandle, hc]
      rw [he]
      rcases List.mem_append.mp hx with hx | hx
      · exact hct1 x hx
      · rcases List.mem_singleton.mp hx with rfl
        exact not_lt.mp hc
  · by_cases hc : c.closeT < o.t
    · exact ⟨o, List.mem_append_right _ (by simp), by simp [stepCandle, hc]⟩
    · rcases hct2 with ⟨x, hx, hxt, hxp⟩
      refine ⟨x, List.mem_append_left _ hx, ?_, ?_⟩
      · rw [show (stepCandle c o).closeT = c.closeT from by simp [stepCandle, hc]]
        exact hxt
      · rw [show (stepCandle c o).closeP = c.closeP from by simp [stepCandle, hc]]
        exact hxp

theorem represents_foldl :
    ∀ (rest : List Obs) (c : Candle) (l : List Obs), Represents c l →
      Represents (rest.foldl stepCandle c) (l ++ rest)
  | [], c, l, h => by simpa using h
  | o :: r, c, l, h => by
    have h3 := represents_foldl r (stepCandle c o) (l ++ [o]) (represents_step c l o h)
    simpa [List.append_assoc] using h3

theorem candle_represents (o : Obs) (rest : List Obs) :
    Represents (candleOfBucket o rest) (o :: rest) := by
  have h := represents_foldl rest (initCandle o) [o] (represents_init o)
  simpa using h

/-- The spec's single-bucket candle example:
observations `[(t=0,p=10),(t=1,p=12),(t=2,p=8),(t=3,p=15)]`. -/
def trendExample : List Obs := [⟨0, 10⟩, ⟨1, 12⟩, ⟨2, 8⟩, ⟨3, 15⟩]

/-- C5: the candle `computeTrend` computes for a non-empty bucket with
pairwise-distinct timestamps has open = the earliest observation's price,
close = the latest's, low = the attained minimum price, high = the attained
maximum price, and volume = the observation count; and on the spec's
single-bucket example `computeTrend` emits exactly that bucket's candle. -/
theorem candle_correct (o : Obs) (rest : List Obs) (e latest : Obs)
    (hnd : ((o :: rest).map Obs.t).Nodup)
    (he : e ∈ o :: rest) (hemin : ∀ x ∈ o :: rest, e.t ≤ x.t)
    (hl : latest ∈ o :: rest) (hlmax : ∀ x ∈ o :: rest, x.t ≤ latest.t) :
    (candleOfBucket o rest).openP = e.p
  ∧ (candleOfBucket o rest).closeP = latest.p
  ∧ ((∀ x ∈ o :: rest, (candleOfBucket o rest).low ≤ x.p)
      ∧ ∃ x ∈ o :: rest, (candleOfBucket o rest).low = x.p)
  ∧ ((∀ x ∈ o :: rest, x.p ≤ (candleOfBucket o rest).high)
      ∧ ∃ x ∈ o :: rest, (candleOfBucket o rest).high = x.p)
  ∧ (candleOfBucket o rest).volume = (o :: rest).length
  ∧ computeTrend 86400 trendExample
      = [candleOfBucket ⟨0, 10⟩ [⟨1, 12⟩, ⟨2, 8⟩, ⟨3, 15⟩]] := by
  obtain ⟨hvol, hlow1, hlow2, hhigh1, hhigh2, hot1, hot2, hct1, hct2⟩ :=
    candle_represents o rest
  refine ⟨?_, ?_, ⟨hlow1, hlow2⟩, ⟨hhigh1, hhigh2⟩, hvol, ?_⟩
  · rcases hot2 with ⟨x, hx, hxt, hxp⟩
    have hte : x.t = e.t := le_antisymm (hxt ▸ hot1 e he) (hemin x hx)
    have hxe : x = e := List.inj_on_of_nodup_map hnd hx he hte
    rw [hxp, hxe]
  · rcases hct2 with ⟨x, hx, hxt, hxp⟩
    have hte : x.t = latest.t := le_antisymm (hlmax x hx) (hxt ▸ hct1 latest hl)
    have hxe : x = latest := List.inj_on_of_nodup_map hnd hx hl hte
    rw [hxp, hxe]
  · have hkeys : List.insertionSort (· ≤ ·) ((trendExample.map (fun o => o.t / 86400)).dedup)
        = [0] := by decide
    rw [computeTrend, hkeys]
    have hfil : trendExample.filter (fun o => decide (o.t / 86400 = 0)) = trendExample := by
      simp +decide [trendExample, List.filter]
    simp only [List.filterMap_cons, List.filterMap_nil, hfil]
    rfl

/-- C5 witness: the spec's example candle — open 10, close 15, low 8,
high 15, volume 4. -/
theorem candle_correct_w :
    (candleOfBucket ⟨0, 10⟩ [⟨1, 12⟩, ⟨2, 8⟩, ⟨3, 15⟩]).openP = 10
  ∧ (candleOfBucket ⟨0, 10⟩ [⟨1, 12⟩, ⟨2, 8⟩, ⟨3, 15⟩]).closeP = 15
  ∧ (candleOfBucket ⟨0, 10⟩ [⟨1, 12⟩, ⟨2, 8⟩, ⟨3, 15⟩]).volume = 4
  ∧ (candleOfBucket ⟨0, 10⟩ [⟨1, 12⟩, ⟨2, 8⟩, ⟨3, 15⟩]).low = 8
  ∧ (candleOfBucket ⟨0, 10⟩ [⟨1, 12⟩, ⟨2, 8⟩, ⟨3, 15⟩]).high = 15 := by
  have h := candle_correct ⟨0, 10⟩ [⟨1, 12⟩, ⟨2, 8⟩, ⟨3, 15⟩] ⟨0, 10⟩ ⟨3, 15⟩
    (by decide) (by decide) (by decide) (by decide) (by decide)
  refine ⟨h.1, h.2.1, h.2.2.2.2.1, ?_, ?_⟩ <;>
    · simp only [candleOfBucket, initCandle, stepCandle, List.foldl]
      norm_num [min_def, max_def]

/-! ### Change rankings: latest-observation characterization -/

theorem latestStep_out (cutoff : ℤ) (acc : Option Obs) (o : Obs) (h : ¬ o.t ≤ cutoff) :
    latestStep cutoff acc o = acc := by
  rw [latestStep.eq_def, if_neg h]

theorem latest_go (cutoff : ℤ) :
    ∀ (l : List Obs) (acc : Option Obs),
      (∀ b, acc = some b → b.t ≤ cutoff) →
      ( (l.foldl (latestStep cutoff) acc = none →
          (acc = none ∧ ∀ o ∈ l, ¬ o.t ≤ cutoff))
      ∧ (∀ a, l.foldl (latestStep cutoff) acc = some a →
          ((a ∈ l ∧ a.t ≤ cutoff) ∨ acc = some a)
          ∧ (∀ x ∈ l, x.t ≤ cutoff → x.t ≤ a.t)
          ∧ (∀ b, acc = some b → b.t ≤ a.t))) := by
  intro l
  induction l with
  | nil =>
    intro acc hacc
    refine ⟨fun h => ⟨h, by simp⟩, fun a ha => ⟨Or.inr ha, by simp, ?_⟩⟩
    intro b hb
    rw [hb] at ha
    rcases Option.some.inj ha with rfl
    exact le_refl _
  | cons o r ih =>
    intro acc hacc
    have hacc2good : ∀ b, latestStep cutoff acc o = some b → b.t ≤ cutoff := by
      intro b hb
      by_cases hoc : o.t ≤ cutoff
      · cases acc with
        | none =>
          simp only [latestStep, if_pos hoc] at hb
          rcases Option.some.inj hb with rfl
          exact hoc
        | some a0 =>
          by_cases ha0 : a0.t < o.t
          · simp only [latestStep, if_pos hoc, if_pos ha0] at hb
            rcases Option.some.inj hb with rfl
            exact hoc
          · simp only [latestStep, if_pos hoc, if_neg ha0] at hb
            rcases Option.some.inj hb with rfl
            exact hacc _ rfl
      · rw [latestStep_out cutoff acc o hoc] at hb
        exact hacc b hb
    rcases ih (latestStep cutoff acc o) hacc2good with ⟨ihn, ihs⟩
    constructor
    · intro hnone
      rw [List.foldl_cons] at hnone
      rcases ihn hnone with ⟨h2none, hall⟩
      by_cases hoc : o.t ≤ cutoff
      · exfalso
        cases acc with
        | none => simp [latestStep, hoc] at h2none
        | some a0 =>
          by_cases ha0 : a0.t < o.t
          · simp [latestStep, hoc, ha0] at h2none
          · simp [latestStep, hoc, ha0] at h2none
      · rw [latestStep_out cutoff acc o hoc] at h2none
        refine ⟨h2none, ?_⟩
        intro x hx
        rcases List.mem_cons.mp hx with rfl | hx
        · exact hoc
        · exact hall x hx
    · intro a ha
      rw [List.foldl_cons] at ha
      rcases ihs a ha with ⟨hmem, hmax, hstep⟩
      by_cases hoc : o.t ≤ cutoff
      · have hkey : ∀ P : Prop, ((a ∈ o :: r ∧ a.t ≤ cutoff) ∨ acc = some a → P) → P := by
          intro P hP
          apply hP
          rcases hmem with ⟨hm, hle⟩ | h2a
          · exact Or.inl ⟨List.mem_cons_of_mem o hm, hle⟩
          · cases acc with
            | none =>
              simp only [latestStep, if_pos hoc] at h2a
              rcases Option.some.inj h2a with rfl
              exact Or.inl ⟨List.mem_cons_self o r, hoc⟩
            | some a0 =>
              by_cases ha0 : a0.t < o.t
              · simp only [latestStep, if_pos hoc, if_pos ha0] at h2a
                rcases Option.some.inj h2a with rfl
                exact Or.inl ⟨List.mem_cons_self o r, hoc⟩
              · simp only [latestStep, if_pos hoc, if_neg ha0] at h2a
                rcases Option.some.inj h2a with rfl
                exact Or.inr rfl
        have hot : o.t ≤ a.t := by
          cases hc : acc with
          | none =>
            apply hstep o
            simp only [latestStep, if_pos hoc, hc]
          | some a0 =>
            by_cases ha0 : a0.t < o.t
            · apply hstep o
              simp only [latestStep, if_pos hoc, hc, if_pos ha0]
            · have h1 : o.t ≤ a0.t := not_lt.mp ha0
              have h2 : a0.t ≤ a.t := by
                apply hstep a0
                simp only [latestStep, if_pos hoc, hc, if_neg ha0]
              exact le_trans h1 h2
        refine hkey _ (fun hm2 => ⟨hm2, ?_, ?_⟩)
        · intro x hx hxc
          rcases List.mem_cons.mp hx with rfl | hx
          · exact hot
          · exact hmax x hx hxc
        · intro b hb
          cases acc with
          | none => cases hb
          | some a0 =>
            have hba : a0 = b := Option.some.inj hb
            subst hba
            by_cases ha0 : a0.t < o.t
            · exact le_trans (le_of_lt ha0) hot
            · apply hstep a0
              simp only [latestStep, if_pos hoc, if_neg ha0]
      · rw [latestStep_out cutoff acc o hoc] at hmem hstep
        refine ⟨?_, ?_, hstep⟩
        · rcases hmem with ⟨hm, hle⟩ | h2a
          · exact Or.inl ⟨List.mem_cons_of_mem o hm, hle⟩
          · exact Or.inr h2a
        · intro x hx hxc
          rcases List.mem_cons.mp hx with rfl | hx
          · exact absurd hxc hoc
          · exact hmax x hx hxc

theorem latestAtOrBefore_none (cutoff : ℤ) (l : List Obs)
    (h : ∀ o ∈ l, ¬ o.t ≤ cutoff) : latestAtOrBefore cutoff l = none := by
  cases hc : latestAtOrBefore cutoff l with
  | none => rfl
  | some a =>
    rcases (latest_go cutoff l none (by simp)).2 a hc with ⟨hmem, -, -⟩
    rcases hmem with ⟨hm, hle⟩ | hcon
    · exact absurd hle (h a hm)
    · cases hcon

theorem latestAtOrBefore_some (cutoff : ℤ) (l : List Obs) (a : Obs)
    (h : latestAtOrBefore cutoff l = some a) :
    a ∈ l ∧ a.t ≤ cutoff ∧ ∀ x ∈ l, x.t ≤ cutoff → x.t ≤ a.t := by
  rcases (latest_go cutoff l none (by simp)).2 a h with ⟨hmem, hmax, -⟩
  rcases hmem with ⟨hm, hle⟩ | hcon
  · exact ⟨hm, hle, hmax⟩
  · cases hcon

/-- C7: an item with no observation at or before `now - lookbackWindow`, or
none at or before `now`, or a zero reference price, is excluded from the
ranking entirely (never reported as 0%, infinite or an error); every
included entry is built from the latest in-range observations with
`change_percentage = (current - reference)/reference * 100`; and the
concrete reference-100/current-120 item yields exactly 20.0 in the gainers
partition. -/
theorem change_ranking_exclusion (now window : ℤ) (i : ℕ) (l : List Obs) :
    ((∀ o ∈ l, ¬ o.t ≤ now - window) → changeEntryFor now window i l = none)
  ∧ ((∀ o ∈ l, ¬ o.t ≤ now) → changeEntryFor now window i l = none)
  ∧ (∀ r, latestAtOrBefore (now - window) l = some r → r.p = 0 →
      changeEntryFor now window i l = none)
  ∧ (∀ e, changeEntryFor now window i l = some e →
      ∃ r c, latestAtOrBefore (now - window) l = some r
        ∧ latestAtOrBefore now l = some c
        ∧ r.p ≠ 0
        ∧ r ∈ l ∧ r.t ≤ now - window ∧ (∀ x ∈ l, x.t ≤ now - window → x.t ≤ r.t)
        ∧ c ∈ l ∧ c.t ≤ now ∧ (∀ x ∈ l, x.t ≤ now → x.t ≤ c.t)
        ∧ e = ⟨i, r.p, c.p, (c.p - r.p) / r.p * 100⟩)
  ∧ rankGainers (computeChangeRankings 10 5 [(1, [⟨2, 100⟩, ⟨8, 120⟩])])
      = [⟨1, 100, 120, 20⟩] := by
  refine ⟨?_, ?_, ?_, ?_, ?_⟩
  · intro h
    have h1 := latestAtOrBefore_none (now - window) l h
    cases h2 : latestAtOrBefore now l <;> simp [changeEntryFor, h1, h2]
  · intro h
    have h2 := latestAtOrBefore_none now l h
    cases h1 : latestAtOrBefore (now - window) l <;> simp [changeEntryFor, h1, h2]
  · intro r hr hrp
    cases h2 : latestAtOrBefore now l with
    | none => simp [changeEntryFor, hr, h2]
    | some c => simp [changeEntryFor, hr, h2, hrp]
  · intro e he
    cases h1 : latestAtOrBefore (now - window) l with
    | none => simp [changeEntryFor, h1] at he
    | some r =>
      cases h2 : latestAtOrBefore now l with
      | none => simp [changeEntryFor, h1, h2] at he
      | some c =>
        simp only [changeEntryFor, h1, h2] at he
        by_cases hrp : r.p = 0
        · rw [if_pos hrp] at he
          cases he
        · rw [if_neg hrp] at he
          rcases latestAtOrBefore_some (now - window) l r h1 with ⟨hrm, hrt, hrmax⟩
          rcases latestAtOrBefore_some now l c h2 with ⟨hcm, hct, hcmax⟩
          exact ⟨r, c, rfl, rfl, hrp, hrm, hrt, hrmax, hcm, hct, hcmax,
            (Option.some.inj he).symm⟩
  · have h1 : latestAtOrBefore (10 - 5) [⟨2, 100⟩, ⟨8, 120⟩] = some ⟨2, 100⟩ := by
      norm_num [latestAtOrBefore, latestStep, List.foldl]
    have h2 : latestAtOrBefore 10 [⟨2, 100⟩, ⟨8, 120⟩] = some ⟨8, 120⟩ := by
      norm_num [latestAtOrBefore, latestStep, List.foldl]
    have h3 : changeEntryFor 10 5 1 [⟨2, 100⟩, ⟨8, 120⟩] = some ⟨1, 100, 120, 20⟩ := by
      rw [changeEntryFor, h1, h2]
      norm_num [ChangeEntry.mk.injEq]
    simp only [computeChangeRankings, List.filterMap_cons, List.filterMap_nil, h3]
    norm_num [rankGainers, List.filter]

/-- C7 witness: an item with its only observation after the reference cutoff
is excluded; so is one whose reference price is 0. -/
theorem change_ranking_exclusion_w :
    changeEntryFor 10 5 1 [⟨8, 120⟩] = none
  ∧ changeEntryFor 10 5 1 [⟨2, 0⟩] = none :=
  ⟨(change_ranking_exclusion 10 5 1 [⟨8, 120⟩]).1
      (by intro o ho; rcases List.mem_singleton.mp ho with rfl; norm_num),
   (change_ranking_exclusion 10 5 1 [⟨2, 0⟩]).2.2.1 ⟨2, 0⟩
      (by norm_num [latestAtOrBefore, latestStep, List.foldl]) rfl⟩

end MWIMarket
